import Mathlib

/- Shallow embedding of the Xownbot extraction-and-download engine.

   The repository contains two parallel engines: the legacy package
   `Download/` (used by the bot front end) and the newer package
   `Downloader/`.  Where a claim touches both, both are embedded and the
   definitions are prefixed with `old` (for `Download/`) where needed.

   Conventions of the embedding:
   - Python dicts are association lists `List (String × V)` with
     `dictGet` / `dictSet` / `dictUpdate` mirroring `d[k]`, `d[k] = v`
     and `d.update(kvs)`;
   - network calls are oracles passed as function arguments
     (e.g. `head : String → HeadResp` for an HTTP HEAD request);
   - `random.sample` and async completion order are nondeterministic:
     they are extra arguments constrained by hypotheses
     (length / permutation), never computed;
   - Python `sorted(xs, key=f)` is a stable comparison sort by the key,
     embedded as insertion sort on `fun a b => f a ≤ f b`;
   - floats (segment durations, byte rates) are embedded as rationals;
     Python `int(x)` truncates toward zero, embedded as `pyInt`. -/

namespace Xownbot

/-- Python `sorted(xs, key=key)`: stable sort ascending by a key. -/
def sortByKey {α β : Type} [LinearOrder β] (key : α → β) (l : List α) : List α :=
  List.insertionSort (fun a b => key a ≤ key b) l

/-- Python dict lookup `d[k]` / `d.get(k)` on an association list. -/
def dictGet {V : Type} (d : List (String × V)) (k : String) : Option V :=
  (d.find? (fun p => p.fst == k)).map (fun p => p.snd)

/-- Python dict assignment `d[k] = v`: replace in place if the key exists,
append otherwise. -/
def dictSet {V : Type} (d : List (String × V)) (k : String) (v : V) :
    List (String × V) :=
  if d.any (fun p => p.fst == k) then
    d.map (fun p => if p.fst == k then (k, v) else p)
  else d ++ [(k, v)]

/-- Python `d.update(patch)`: each binding of `patch` is assigned in order,
so a later binding for the same key overwrites an earlier one. -/
def dictUpdate {V : Type} (d patch : List (String × V)) : List (String × V) :=
  patch.foldl (fun acc p => dictSet acc p.fst p.snd) d

/-- One candidate media item as the extractors build it
(`Downloader/media.py`); only the fields the claims mention. -/
structure Media where
  url : String
  title : String
  size : Int
deriving DecidableEq, Repr

/-- `BaseExtractor.src_video__sorted` (`Downloader/extractor.py` line 46):
`sorted(self.src_video, key=lambda x: x.size)`. -/
def src_video__sorted (l : List Media) : List Media :=
  sortByKey (fun m => m.size) l

/-- What a completed extractor pipeline hands to the facade:
`_extractor.title / .metadata / .src_image / .src_video`. -/
structure ExtractorResult where
  title : String
  metadata : List (String × String)
  src_image : List Media
  src_video : List Media
deriving DecidableEq

/-- The `Downloader` facade object (`Downloader/downloader.py`). -/
structure DownloaderState where
  url : String
  md_hash : String
  title : String
  metadata : List (String × String)
  src_image : List Media
  src_video : List Media
  ready : Bool
deriving DecidableEq

/-- One cache file: the pickled `{attr: value}` dict over `_CACHE_ATTRS =
[url, md_hash, title, metadata, src_image, src_video]`.  Serialization is
modelled as storing the values themselves. -/
structure CacheEntry where
  url : String
  md_hash : String
  title : String
  metadata : List (String × String)
  src_image : List Media
  src_video : List Media
deriving DecidableEq

/-- The cache directory: one entry per content hash. -/
abbrev CacheStore := List (String × CacheEntry)

/-- `Downloader.__init__`: `md_hash = md5(url)`; md5 is an oracle, a pure
function of the url string. -/
def downloaderInit (md5 : String → String) (url : String) : DownloaderState :=
  ⟨url, md5 url, "", [], [], [], false⟩

/-- `Downloader.save`: the dict written to the cache file. -/
def downloaderSaveEntry (d : DownloaderState) : CacheEntry :=
  ⟨d.url, d.md_hash, d.title, d.metadata, d.src_image, d.src_video⟩

/-- `Downloader.load`: `setattr(self, k, v)` for every cached attribute. -/
def downloaderLoad (d : DownloaderState) (e : CacheEntry) : DownloaderState :=
  ⟨e.url, e.md_hash, e.title, e.metadata, e.src_image, e.src_video, d.ready⟩

/-- The extraction arm of `Downloader.make_ready`: run the resolved
extractor and copy its fields onto the facade, the videos through
`src_video__sorted`.  `extractor` is the network-extraction oracle (the
whole `get_extractor_cls(url)(url).extract()` run). -/
def downloaderExtractRun (extractor : String → ExtractorResult)
    (d : DownloaderState) : DownloaderState :=
  let r := extractor d.url
  { d with title := r.title, metadata := r.metadata,
           src_image := r.src_image,
           src_video := src_video__sorted r.src_video,
           ready := true }

/-- `Downloader.make_ready(use_cache)` (`Downloader/downloader.py` lines
26-41): cache branch if caching is on and the cache file exists, extraction
plus save otherwise; the returned Bool reports whether the network
extraction ran. -/
def downloaderMakeReady (extractor : String → ExtractorResult)
    (useCache : Bool) (d : DownloaderState) (store : CacheStore) :
    DownloaderState × CacheStore × Bool :=
  if useCache && (dictGet store d.md_hash).isSome then
    match dictGet store d.md_hash with
    | some e => ({ downloaderLoad d e with ready := true }, store, false)
    | none => ({ d with ready := true }, store, false)
  else
    let d' := downloaderExtractRun extractor d
    (d', if useCache then dictSet store d.md_hash (downloaderSaveEntry d')
         else store, true)

/-- A fixed default media value, used only to state adjacent-pair
properties with `List.getD`. -/
def mediaDefault : Media := ⟨"", "", 0⟩

/-! HLS size estimation (`M3U8Media._make_ready__size__10` in
`Downloader/media.py` lines 160-175, identical to
`M3U8Media._get_m3u8_size` in `Downloader/types.py` lines 123-137). -/

/-- Python `int(x)`: truncation toward zero. -/
def pyInt (q : ℚ) : Int := if 0 ≤ q then ⌊q⌋ else ⌈q⌉

/-- `statistics.mean`: sum divided by length (raises on an empty list, so
theorems assume nonemptiness). -/
def pyMean (l : List ℚ) : ℚ := l.sum / (l.length : ℚ)

/-- One parsed playlist segment: `absolute_uri` and `duration`. -/
structure Segment where
  absolute_uri : String
  duration : ℚ
deriving DecidableEq, Repr

/-- `M3U8Media.SIZE_ESTIMATE_SAMPLE`. -/
def SIZE_ESTIMATE_SAMPLE : ℕ := 10

/-- The sampling branch: `random.sample(src_list, 10) if len(src_list) > 10
else src_list`.  The value `random.sample` would return is the
nondeterministic argument `sample` (constrained by hypotheses). -/
def chooseSamples (sample : List Segment) (src_list : List Segment) :
    List Segment :=
  if src_list.length > SIZE_ESTIMATE_SAMPLE then sample else src_list

/-- The rate `req.content_length / samples[c_].duration` for one probed
segment; `cl` is the HEAD oracle giving each URI its content length. -/
def segRate (cl : String → ℚ) (s : Segment) : ℚ := cl s.absolute_uri / s.duration

/-- The estimation body: the rates are appended in HEAD completion order
(`arrived`, a permutation of the probed segments — the `c_` tag pairs each
response with its own segment), then `int(mean(size) * sum(durations of
ALL segments))`. -/
def get_m3u8_size (cl : String → ℚ) (arrived : List Segment)
    (src_list : List Segment) : Int :=
  pyInt (pyMean (arrived.map (segRate cl)) *
    (src_list.map (fun s => s.duration)).sum)

/-- The estimate as the spec words it: mean rate over the probed segments
times the total duration, truncated. -/
def specSizeEstimate (cl : String → ℚ) (probed : List Segment)
    (src_list : List Segment) : Int :=
  pyInt (pyMean (probed.map (segRate cl)) *
    (src_list.map (fun s => s.duration)).sum)

/-! Download orchestrator (`Aria2Client`), daemon-side effects. -/

/-- A daemon control operation issued by the client. -/
inductive AriaOp where
  | addUri (gid : String)
  | forceRemove (gid : String)
deriving DecidableEq, Repr

/-- The daemon's job table: the gids it currently tracks. -/
structure DaemonState where
  active : List String
deriving DecidableEq, Repr

def applyAriaOp (s : DaemonState) : AriaOp → DaemonState
  | .addUri g => ⟨g :: s.active⟩
  | .forceRemove g => ⟨s.active.filter (fun x => x ≠ g)⟩

def runAriaOps (s : DaemonState) (ops : List AriaOp) : DaemonState :=
  ops.foldl applyAriaOp s

/-- `DownloaderError(error_code, error_msg)` from
`Downloader/exception.py`. -/
structure DownloaderError where
  error_code : String
  error_msg : String
deriving DecidableEq, Repr

/-- How one run of the scoped download context can exit: the block
completes, `await_complete` raises (e.g. a failed job), or the body of the
`async with` block raises. -/
inductive ScopeExit where
  | success
  | awaitError (e : DownloaderError)
  | blockError (msg : String)
deriving DecidableEq, Repr

/-- `Aria2Client.with_download_many` in `Downloader/http.py` lines 176-196:
`download_many` submits every url, then `await_complete` runs INSIDE the
`try`, and the `finally` clause force-removes every gid — so the cleanup
runs on every exit path. -/
def with_download_many (gids : List String) (ex : ScopeExit) : List AriaOp :=
  let submitted := gids.map AriaOp.addUri
  let body : List AriaOp :=
    match ex with
    | .success => []
    | .awaitError _ => []
    | .blockError _ => []
  submitted ++ body ++ gids.map AriaOp.forceRemove

/-- `Aria2Client.with_download_many` in the legacy `Download/http.py` lines
170-189: there `download_many` both submits and awaits completion BEFORE
the `try`, so only the caller's block is guarded; an error raised while
awaiting completion propagates before the `try` is entered and the removal
never runs. -/
def old_with_download_many (gids : List String) (ex : ScopeExit) : List AriaOp :=
  let submitted := gids.map AriaOp.addUri
  match ex with
  | .awaitError _ => submitted
  | .success => submitted ++ gids.map AriaOp.forceRemove
  | .blockError _ => submitted ++ gids.map AriaOp.forceRemove

/-! Polling loop (`Aria2Client.await_complete`, `Downloader/http.py` lines
215-236). -/

/-- One job status row as `tellStatus` reports it.  The loop first fetches
`status`; on error it fetches the same gid's `errorCode` / `errorMessage`,
modelled as further fields of the same row. -/
structure JobStat where
  status : String
  errorCode : String
  errorMessage : String
deriving DecidableEq, Repr

/-- The for-loop of one poll round: scan the statuses left to right with the
`is_complete` accumulator; the first job reporting `error` raises a
`DownloaderError` with that job's code and message at once, before the
remaining statuses are even looked at. -/
def pollScan : List JobStat → Bool → Except DownloaderError Bool
  | [], acc => .ok acc
  | s :: rest, acc =>
    if s.status = "error" then .error ⟨s.errorCode, s.errorMessage⟩
    else pollScan rest (acc && (s.status == "complete"))

/-- `await_complete` over a finite schedule of poll rounds (one list of
statuses per `while` iteration).  `none` means the schedule ran out with
the loop still polling — the code would sleep and poll again. -/
def await_complete : List (List JobStat) → Option (Except DownloaderError Unit)
  | [] => none
  | r :: rest =>
    match pollScan r true with
    | .error e => some (.error e)
    | .ok true => some (.ok ())
    | .ok false => await_complete rest

/-! Site registry and extractor resolution (`get_extractor_cls` in
`Downloader/extractor.py` lines 351-361, legacy `get_downloader` in
`Download/downloader.py` lines 409-419). -/

/-- A parsed `yarl.URL`, as far as host matching is concerned: the raw
authority host as it appeared in the URL text. -/
structure PyURL where
  rawHost : String
deriving DecidableEq, Repr

/-- Host lowercasing: `yarl.URL` normalizes the hostname to lower case
while parsing (URL/IDNA host normalization), so `url.host` is the
lowercased authority. -/
def lowerHost (s : String) : String := String.mk (s.data.map Char.toLower)

/-- `url.host` of a parsed `yarl.URL`. -/
def PyURL.host (u : PyURL) : String := lowerHost u.rawHost

/-- The registered extractor classes, in the order `inspect.getmembers`
(alphabetical by class name) yields them; `BaseExtractor` is excluded
because its `URLS` is an abstract property, not a list. -/
inductive ExtractorCls where
  | pornEZ | pornHub | redTube | tubePornClassic | xvideos
deriving DecidableEq, Repr

/-- Each extractor type's `URLS` class attribute. -/
def URLS : ExtractorCls → List String
  | .pornEZ => ["pornez.net"]
  | .pornHub => ["pornhub.com"]
  | .redTube => ["redtube.com"]
  | .tubePornClassic => ["tubepornclassic.com"]
  | .xvideos => ["xvideos.com", "xnxx.com"]

def hostExtractors : List ExtractorCls :=
  [.pornEZ, .pornHub, .redTube, .tubePornClassic, .xvideos]

/-- `SUPPORTED_SITES`: the union of every registered `URLS`.  The source
keeps a Python set (unordered); one fixed enumeration is used here, all
entries being distinct. -/
def SUPPORTED_SITES : List String := (hostExtractors.map URLS).flatten

/-- `NotSupportedSite(url)`: records the url and the supported hosts. -/
structure NotSupportedSite where
  url : PyURL
  supported : List String
deriving DecidableEq, Repr

/-- `NotSupportedSite.__str__`. -/
def notSupportedSiteStr (e : NotSupportedSite) : String :=
  e.url.host ++ " is not supported. supported ones are " ++
    String.intercalate ", " e.supported

/-- `if host.startswith("www."): host = host[len("www."):]` — performed on
the character sequence, as Python string slicing is. -/
def stripWww (h : String) : String :=
  if "www.".data.isPrefixOf h.data then String.mk (h.data.drop 4) else h

/-- `get_extractor_cls`: strip a leading `www.` from the (lowercased)
host, return the first registered extractor whose `URLS` lists it, else
raise `NotSupportedSite(url)`. -/
def get_extractor_cls (u : PyURL) : Except NotSupportedSite ExtractorCls :=
  match hostExtractors.find?
      (fun e => (URLS e).contains (stripWww u.host)) with
  | some e => Except.ok e
  | none => Except.error ⟨u, SUPPORTED_SITES⟩

/-- Legacy `DOWNLOADER_MAP` (`Download/downloader.py` lines 402-406);
values are the downloader class names. -/
def DOWNLOADER_MAP : List (String × String) :=
  [("pornez.net", "PornEZ"), ("xvideos.com", "XVideos"),
   ("tubepornclassic.com", "TubePornClassic")]

/-- Legacy `get_downloader`: `urllib.parse.urlsplit` preserves the
netloc's letter case; only a leading `www.` is stripped before the dict
lookup, and a miss raises `NotSupportedSite`, whose `supported` is
`DOWNLOADER_MAP.keys()`. -/
def get_downloader (netloc : String) : Except (List String) String :=
  match DOWNLOADER_MAP.find? (fun p => p.fst == stripWww netloc) with
  | some p => Except.ok p.snd
  | none => Except.error (DOWNLOADER_MAP.map (fun p => p.fst))

/-! Concurrent batch fetch (`AioHttpClient._call_many_async`, textually
identical in `Downloader/http.py` lines 89-123 and `Download/http.py`
lines 77-111). -/

/-- What awaiting one batch task produces: the response, or the exception
the request raised. -/
inductive FetchOutcome where
  | ok (resp : Nat)
  | fail (err : String)
deriving DecidableEq, Repr

/-- The async-generator body: one task per url, tagged by its enumeration
index; `asyncio.as_completed` hands tasks back in completion order
(`order`, some permutation of the indices).  `res = await t_` re-raises a
failed task's exception out of the generator, ending the stream: siblings
keep running but their results are never yielded.  Returns the yielded
`(index, response)` pairs and the escaped exception, if any. -/
def callManyYields (outcomes : List FetchOutcome) :
    List Nat → List (Nat × Nat) × Option String
  | [] => ([], none)
  | i :: rest =>
    match outcomes[i]? with
    | some (FetchOutcome.ok r) =>
      let t := callManyYields outcomes rest
      ((i, r) :: t.1, t.2)
    | some (FetchOutcome.fail e) => ([], some e)
    | none => ([], none)

/-! `BaseMedia.download` (`Downloader/media.py` lines 37-52 with the
`DOWNLOAD_DEPENDS_ON_READY` flags, and the unconditional
`Downloader/types.py` variant, lines 33-48). -/

inductive MediaKind where
  | generic | m3u8
deriving DecidableEq, Repr

/-- `DOWNLOAD_DEPENDS_ON_READY`: `False` on `GenericMedia`
(`Downloader/media.py` line 81), `True` on `M3U8Media` (line 132). -/
def DOWNLOAD_DEPENDS_ON_READY : MediaKind → Bool
  | .generic => false
  | .m3u8 => true

structure MediaObj where
  kind : MediaKind
  ready : Bool
deriving DecidableEq, Repr

inductive MediaEvent where
  | makeReady | transfer
deriving DecidableEq, Repr

/-- `BaseMedia.download` in `Downloader/media.py`: `make_ready` runs first
only when `self.DOWNLOAD_DEPENDS_ON_READY and not self.ready`; then the
transfer (`self._download`) is submitted. -/
def mediaDownloadEvents (m : MediaObj) : List MediaEvent :=
  (if DOWNLOAD_DEPENDS_ON_READY m.kind && !m.ready then [MediaEvent.makeReady]
   else []) ++ [MediaEvent.transfer]

/-- `BaseMedia.download` in `Downloader/types.py`: `if not self._ready:
await self.make_ready()` unconditionally, for every variant. -/
def typesDownloadEvents (m : MediaObj) : List MediaEvent :=
  (if !m.ready then [MediaEvent.makeReady] else []) ++ [MediaEvent.transfer]

/-! `GenericMedia.make_ready` in both hierarchies (`Downloader/types.py`
lines 97-103, `Downloader/media.py` lines 80-103). -/

/-- A HEAD response: `content_length` and the `Content-Type` header (the
header is assumed present, as the code indexes it unconditionally). -/
structure HeadResp where
  content_length : Int
  contentType : String
deriving DecidableEq, Repr

/-- The pydantic `GenericMedia` (`Downloader/types.py`): url, size, ready. -/
structure GMediaT where
  url : String
  size : Int
  ready : Bool
deriving DecidableEq, Repr

/-- `GenericMedia.make_ready` in `Downloader/types.py`: one HEAD only when
`self.size < 0`, setting `size` from its content-length; then `_ready =
True`.  `head` is the HEAD oracle; the second component counts the HEAD
requests issued. -/
def typesGenericMakeReady (head : String → HeadResp) (m : GMediaT) :
    GMediaT × Nat :=
  if m.size < 0 then
    ({ m with size := (head m.url).content_length, ready := true }, 1)
  else ({ m with ready := true }, 0)

/-- A value stored in a `BaseMedia._context` dict. -/
inductive GVal where
  | none
  | resp (r : HeadResp)
  | int (n : Int)
  | str (s : String)
deriving DecidableEq, Repr

/-- The `Downloader/media.py` `GenericMedia`: observable fields plus the
persistent `_context` dict. -/
structure GMediaM where
  url : String
  size : Int
  extension : String
  ready : Bool
  ctx : List (String × GVal)
deriving DecidableEq, Repr

/-- `GenericMedia._get_head` (`Downloader/media.py` lines 121-128): reuse
`self._context["head"]` whenever the KEY is present — even when its value
is `None` — otherwise issue one HEAD request.  Returns the value and the
number of HEAD requests issued. -/
def getHeadCtx (head : String → HeadResp) (url : String)
    (ctx : List (String × GVal)) : GVal × Nat :=
  match dictGet ctx "head" with
  | some v => (v, 0)
  | Option.none => (GVal.resp (head url), 1)

/-- The Python exception a stage raises when it dereferences
`.content_length` or `.headers` on a non-response value. -/
inductive PyErr where
  | attributeError
deriving DecidableEq, Repr

/-- `GenericMedia.make_ready` in `Downloader/media.py`: the
`AutoCallMixin` run of the four `_make_ready__` stages in their numeric
order (`head__5`, `size__10`, `extension__20`, `postprocess__100`), each
calling `_get_head` on the current context; afterwards
`assign_from_context` copies the context entries (`size`, `extension`)
onto the object and `make_ready` sets `ready = True`.  A raised
`AttributeError` propagates: neither the assignment nor the ready flag
happens.  Returns the outcome and the number of HEAD requests issued.
Note no stage consults `self.size` — the probing is governed solely by
the cached `head` context entry. -/
def mediaGenericMakeReady (head : String → HeadResp) (m : GMediaM) :
    Except PyErr GMediaM × Nat :=
  let s5 := getHeadCtx head m.url m.ctx
  let ctx5 := dictUpdate m.ctx [("head", s5.1)]
  let s10 := getHeadCtx head m.url ctx5
  match s10.1 with
  | GVal.resp r10 =>
    let ctx10 := dictUpdate ctx5 [("size", GVal.int r10.content_length)]
    let s20 := getHeadCtx head m.url ctx10
    match s20.1 with
    | GVal.resp r20 =>
      let ctx20 := dictUpdate ctx10
        [("extension",
          GVal.str ("." ++ ((r20.contentType.splitOn "/").getLastD "")))]
      let ctx100 := dictUpdate ctx20 [("head", GVal.none)]
      let size' := match dictGet ctx100 "size" with
        | some (GVal.int n) => n
        | _ => m.size
      let ext' := match dictGet ctx100 "extension" with
        | some (GVal.str s) => s
        | _ => m.extension
      (Except.ok ⟨m.url, size', ext', true, ctx100⟩, s5.2 + s10.2 + s20.2)
    | _ => (Except.error PyErr.attributeError, s5.2 + s10.2 + s20.2)
  | _ => (Except.error PyErr.attributeError, s5.2 + s10.2)

/-! The stage-pipeline mixin (`AutoCallMixin.async_auto_call` and
`assign_from_context`, `utils/helpers.py` lines 8-26). -/

/-- The characters after the LAST occurrence of `pat` in the input, if
`pat` occurs at all: `s.rsplit(pat, 1)[-1]` restricted to one split. -/
def lastSuffixAfter (pat : List Char) : List Char → Option (List Char)
  | [] => none
  | c :: cs =>
    match lastSuffixAfter pat cs with
    | some r => some r
    | none =>
      if pat.isPrefixOf (c :: cs) then some ((c :: cs).drop pat.length)
      else none

/-- Python `int(digits)` on a character sequence: defined for nonempty
all-digit input, as stage-name suffixes are; `none` where `int()` would
raise `ValueError`. -/
def charsToNat? (l : List Char) : Option Nat :=
  if l.isEmpty then none
  else if l.all (fun c => c.isDigit) then
    some (l.foldl (fun acc c => acc * 10 + (c.toNat - 48)) 0)
  else none

/-- The sort key `int(x.rsplit("__", 1)[-1])` of a stage method name
(defaulting to 0 where `int()` would raise — theorems assume the suffix
parses, see `methodKeyParses`). -/
def methodKey (s : String) : Nat :=
  (match lastSuffixAfter "__".data s.data with
   | some r => charsToNat? r
   | none => charsToNat? s.data).getD 0

/-- Whether `int(x.rsplit("__", 1)[-1])` succeeds on the name. -/
def methodKeyParses (s : String) : Bool :=
  (match lastSuffixAfter "__".data s.data with
   | some r => charsToNat? r
   | none => charsToNat? s.data).isSome

/-- One stage method: it reads the accumulated context and returns the
keys it contributes, or raises. -/
abbrev StageFn (V E : Type) :=
  List (String × V) → Except E (List (String × V))

/-- The value the LAST binding for `k` in a returned stage dict carries
(dict literals keep the last duplicate). -/
def patchGetLast {V : Type} (p : List (String × V)) (k : String) : Option V :=
  (p.reverse.find? (fun q => q.fst == k)).map (fun q => q.snd)

/-- The value the last stage (in execution order) that wrote `k`
contributed, across a list of stage patches. -/
def stagesLastWrite {V : Type} :
    List (List (String × V)) → String → Option V
  | [], _ => none
  | p :: rest, k =>
    match stagesLastWrite rest k with
    | some v => some v
    | none => patchGetLast p k

/-- The for-loop of `async_auto_call`: `getattr` each name in order
(`find?` over the method table), await it, and `self._context.update` its
returned dict; an exception propagates.  Returns the `(name, patch)`
pairs of the stages that ran, and the outcome context. -/
def runStages {V E : Type} (tbl : List (String × StageFn V E)) :
    List String → List (String × V) →
      List (String × List (String × V)) × Except E (List (String × V))
  | [], ctx => ([], Except.ok ctx)
  | n :: rest, ctx =>
    match tbl.find? (fun p => p.fst == n) with
    | none => ([], Except.ok ctx)
    | some p =>
      match p.snd ctx with
      | Except.error e => ([(n, [])], Except.error e)
      | Except.ok patch =>
        let t := runStages tbl rest (dictUpdate ctx patch)
        ((n, patch) :: t.1, t.2)

/-- The execution order `async_auto_call` computes: the object's method
names filtered by the prefix and sorted ascending by the numeric suffix
key. -/
def autoCallOrder {V E : Type} (tbl : List (String × StageFn V E))
    (pre : String) : List String :=
  sortByKey methodKey
    ((tbl.map Prod.fst).filter (fun n => pre.data.isPrefixOf n.data))

/-- `AutoCallMixin.async_auto_call(prefix, assign=True)`: run the
prefix-matching stages in numeric order, then `assign_from_context` sets
every context key as an attribute of the object (`attrs`).  Returns the
executed `(name, patch)` pairs and, on success, the final context and
attribute dict. -/
def async_auto_call {V E : Type} (tbl : List (String × StageFn V E))
    (pre : String) (ctx0 attrs0 : List (String × V)) :
    List (String × List (String × V)) ×
      Except E (List (String × V) × List (String × V)) :=
  let t := runStages tbl (autoCallOrder tbl pre) ctx0
  match t.2 with
  | Except.ok ctx => (t.1, Except.ok (ctx, dictUpdate attrs0 ctx))
  | Except.error e => (t.1, Except.error e)

/-- A two-stage demo table for the pipeline mixin: stage `a` is numbered
50 and stage `b` 100, so numeric order runs `a` before `b` even though
the string "100" sorts before "50" lexicographically. -/
def autoCallDemoTbl : List (String × StageFn Nat Unit) :=
  [("_go__b__100", fun _ => Except.ok [("t", 100)]),
   ("_go__a__50", fun _ => Except.ok [("x", 1), ("t", 50)])]

end Xownbot

namespace Xownbot

theorem sortByKey_sorted {α β : Type} [LinearOrder β] (key : α → β)
    (l : List α) :
    (sortByKey key l).Sorted (fun a b => key a ≤ key b) := by
  haveI : IsTotal α (fun a b => key a ≤ key b) :=
    ⟨fun a b => le_total (key a) (key b)⟩
  haveI : IsTrans α (fun a b => key a ≤ key b) :=
    ⟨fun _ _ _ h₁ h₂ => le_trans h₁ h₂⟩
  exact List.sorted_insertionSort _ l

theorem sortByKey_perm {α β : Type} [LinearOrder β] (key : α → β)
    (l : List α) : (sortByKey key l).Perm l :=
  List.perm_insertionSort _ l

theorem downloaderMakeReady_extract_branch (extractor : String → ExtractorResult)
    (useCache : Bool) (d : DownloaderState) (store : CacheStore)
    (h : (useCache && (dictGet store d.md_hash).isSome) = false) :
    downloaderMakeReady extractor useCache d store =
      (downloaderExtractRun extractor d,
        if useCache then
          dictSet store d.md_hash
            (downloaderSaveEntry (downloaderExtractRun extractor d))
        else store, true) := by
  unfold downloaderMakeReady
  rw [h]
  simp

theorem downloaderMakeReady_cache_hit (extractor : String → ExtractorResult)
    (d : DownloaderState) (store : CacheStore) (e : CacheEntry)
    (he : dictGet store d.md_hash = some e) :
    downloaderMakeReady extractor true d store =
      ({ downloaderLoad d e with ready := true }, store, false) := by
  unfold downloaderMakeReady
  rw [he]
  simp

/-- C4: after an extraction run of the facade (any path that does not hit
the cache), the resulting video list is sorted ascending by size: every
pair of adjacent elements satisfies `v[i].size ≤ v[i+1].size`. -/
theorem extraction_videos_sorted_by_size (extractor : String → ExtractorResult)
    (useCache : Bool) (d : DownloaderState) (store : CacheStore)
    (hmiss : (useCache && (dictGet store d.md_hash).isSome) = false)
    (i : ℕ)
    (h : i + 1 < (downloaderMakeReady extractor useCache d store).1.src_video.length) :
    ((downloaderMakeReady extractor useCache d store).1.src_video.getD i mediaDefault).size ≤
      ((downloaderMakeReady extractor useCache d store).1.src_video.getD (i + 1) mediaDefault).size := by
  have hvid : (downloaderMakeReady extractor useCache d store).1.src_video =
      src_video__sorted (extractor d.url).src_video := by
    rw [downloaderMakeReady_extract_branch extractor useCache d store hmiss]
    rfl
  rw [hvid] at h ⊢
  have hs := sortByKey_sorted (fun m => m.size) (extractor d.url).src_video
  have hi : i < (src_video__sorted (extractor d.url).src_video).length :=
    Nat.lt_of_succ_lt h
  rw [List.getD_eq_get _ _ hi, List.getD_eq_get _ _ h]
  exact List.Sorted.rel_get_of_lt hs (by exact Nat.lt_succ_self i)

theorem extraction_videos_sorted_by_size_witness :
    (0 + 1 <
      (downloaderMakeReady
        (fun _ => ⟨"t", [], [], [⟨"u1", "a", 5⟩, ⟨"u2", "b", 3⟩]⟩)
        false (downloaderInit (fun _ => "h") "u") []).1.src_video.length) ∧
    ((downloaderMakeReady
        (fun _ => ⟨"t", [], [], [⟨"u1", "a", 5⟩, ⟨"u2", "b", 3⟩]⟩)
        false (downloaderInit (fun _ => "h") "u") []).1.src_video.getD 0 mediaDefault).size ≤
      ((downloaderMakeReady
        (fun _ => ⟨"t", [], [], [⟨"u1", "a", 5⟩, ⟨"u2", "b", 3⟩]⟩)
        false (downloaderInit (fun _ => "h") "u") []).1.src_video.getD 1 mediaDefault).size :=
  ⟨by decide,
   extraction_videos_sorted_by_size
     (fun _ => ⟨"t", [], [], [⟨"u1", "a", 5⟩, ⟨"u2", "b", 3⟩]⟩)
     false (downloaderInit (fun _ => "h") "u") [] (by decide) 0 (by decide)⟩

/-- C1: when `size` is unknown, the HLS estimate probes all segments if
there are at most 10 of them (making the estimate deterministic), exactly
10 sampled segments otherwise, and whatever order the HEAD responses
arrive in, the result equals the truncated product of the mean
bytes-per-second rate over the probed segments and the total duration of
ALL segments. -/
theorem m3u8_size_estimate (cl : String → ℚ) (sample : List Segment)
    (arrived : List Segment) (src_list : List Segment)
    (hlen : src_list.length > SIZE_ESTIMATE_SAMPLE → sample.length = 10)
    (harr : arrived.Perm (chooseSamples sample src_list)) :
    get_m3u8_size cl arrived src_list =
      specSizeEstimate cl (chooseSamples sample src_list) src_list ∧
    (src_list.length ≤ SIZE_ESTIMATE_SAMPLE →
      chooseSamples sample src_list = src_list) ∧
    (src_list.length > SIZE_ESTIMATE_SAMPLE →
      (chooseSamples sample src_list).length = 10) := by
  refine ⟨?_, ?_, ?_⟩
  · have hperm : (arrived.map (segRate cl)).Perm
        ((chooseSamples sample src_list).map (segRate cl)) := harr.map _
    unfold get_m3u8_size specSizeEstimate pyMean
    rw [hperm.sum_eq, hperm.length_eq]
  · intro hle
    unfold chooseSamples
    rw [if_neg (by omega)]
  · intro hgt
    unfold chooseSamples
    rw [if_pos hgt]
    exact hlen hgt

theorem m3u8_size_estimate_witness :
    (get_m3u8_size (fun u => if u = "a" then 10 else 30)
        [⟨"b", 3⟩, ⟨"a", 2⟩] [⟨"a", 2⟩, ⟨"b", 3⟩] =
      specSizeEstimate (fun u => if u = "a" then 10 else 30)
        (chooseSamples [] [⟨"a", 2⟩, ⟨"b", 3⟩]) [⟨"a", 2⟩, ⟨"b", 3⟩]) ∧
    (([⟨"a", 2⟩, ⟨"b", 3⟩] : List Segment).length ≤ SIZE_ESTIMATE_SAMPLE →
      chooseSamples [] [⟨"a", 2⟩, ⟨"b", 3⟩] = [⟨"a", 2⟩, ⟨"b", 3⟩]) ∧
    get_m3u8_size (fun u => if u = "a" then 10 else 30)
        [⟨"b", 3⟩, ⟨"a", 2⟩] [⟨"a", 2⟩, ⟨"b", 3⟩] = 37 := by
  have h := m3u8_size_estimate (fun u => if u = "a" then 10 else 30)
    [] [⟨"b", 3⟩, ⟨"a", 2⟩] [⟨"a", 2⟩, ⟨"b", 3⟩]
    (by intro hgt; simp [SIZE_ESTIMATE_SAMPLE] at hgt)
    (by unfold chooseSamples SIZE_ESTIMATE_SAMPLE
        rw [if_neg (by norm_num)]
        exact List.Perm.swap _ _ _)
  refine ⟨h.1, h.2.1, ?_⟩
  have hv : pyMean (([⟨"b", 3⟩, ⟨"a", 2⟩] : List Segment).map
        (segRate (fun u => if u = "a" then 10 else 30))) *
      (([⟨"a", 2⟩, ⟨"b", 3⟩] : List Segment).map (fun s => s.duration)).sum =
      75 / 2 := by
    have hb : ¬("b" : String) = "a" := by decide
    norm_num [pyMean, segRate, hb]
  unfold get_m3u8_size
  rw [hv]
  unfold pyInt
  rw [if_pos (by norm_num)]
  rw [Int.floor_eq_iff]
  constructor <;> norm_num

/-- C2 counterexample: in the legacy engine (`Download/http.py`) the await
for completion happens before the `try` block, so when a job errors during
awaiting, no force-removal is ever issued and the job survives on the
daemon — refuting the claim that every path cleans up. -/
theorem with_download_many_cleanup_cex :
    AriaOp.forceRemove "g1" ∉
      old_with_download_many ["g1"] (.awaitError ⟨"1", "network"⟩) ∧
    "g1" ∈ (runAriaOps ⟨[]⟩
      (old_with_download_many ["g1"] (.awaitError ⟨"1", "network"⟩))).active := by
  decide

theorem runAriaOps_append (s : DaemonState) (l₁ l₂ : List AriaOp) :
    runAriaOps s (l₁ ++ l₂) = runAriaOps (runAriaOps s l₁) l₂ :=
  List.foldl_append _ _ _ _

theorem runAriaOps_forceRemoves_subset (l : List String) (s : DaemonState)
    (x : String) :
    x ∈ (runAriaOps s (l.map AriaOp.forceRemove)).active → x ∈ s.active := by
  induction l generalizing s with
  | nil => exact fun h => h
  | cons g rest ih =>
    intro h
    have := ih (applyAriaOp s (AriaOp.forceRemove g)) h
    simp only [applyAriaOp, List.mem_filter] at this
    exact this.1

theorem runAriaOps_forceRemoves_not_mem (gids : List String) (s : DaemonState)
    (g : String) (hg : g ∈ gids) :
    g ∉ (runAriaOps s (gids.map AriaOp.forceRemove)).active := by
  induction gids generalizing s with
  | nil => cases hg
  | cons g0 rest ih =>
    rcases List.mem_cons.mp hg with h | h
    · subst h
      intro hmem
      have := runAriaOps_forceRemoves_subset rest
        (applyAriaOp s (AriaOp.forceRemove g)) g hmem
      simp [applyAriaOp, List.mem_filter] at this
    · exact ih _ h

/-- C2 (amended): in `Downloader/http.py` every gid created by the scoped
context is force-removed on every exit path — success, an error while
awaiting completion (such as a `DownloaderError` from a failed job), or an
exception inside the caller's block — and no created job survives on the
daemon.  In the legacy `Download/http.py` the same holds only for the
success and block-exception paths: an error raised while awaiting
completion escapes before the `try` is entered (see the counterexample). -/
theorem with_download_many_cleanup (gids : List String) (ex : ScopeExit)
    (g : String) (hg : g ∈ gids) (s0 : DaemonState) :
    (AriaOp.forceRemove g ∈ with_download_many gids ex ∧
      g ∉ (runAriaOps s0 (with_download_many gids ex)).active) ∧
    ((∀ e, ex ≠ ScopeExit.awaitError e) →
      AriaOp.forceRemove g ∈ old_with_download_many gids ex ∧
      g ∉ (runAriaOps s0 (old_with_download_many gids ex)).active) := by
  have hrem : ∀ s : DaemonState,
      g ∉ (runAriaOps s
        (gids.map AriaOp.addUri ++ gids.map AriaOp.forceRemove)).active := by
    intro s
    rw [runAriaOps_append]
    exact runAriaOps_forceRemoves_not_mem gids _ g hg
  constructor
  · have htr : with_download_many gids ex =
        gids.map AriaOp.addUri ++ gids.map AriaOp.forceRemove := by
      unfold with_download_many
      cases ex <;> simp
    rw [htr]
    exact ⟨List.mem_append_right _ (List.mem_map_of_mem _ hg), hrem s0⟩
  · intro hne
    cases ex with
    | awaitError e => exact absurd rfl (hne e)
    | success =>
      have htr : old_with_download_many gids ScopeExit.success =
          gids.map AriaOp.addUri ++ gids.map AriaOp.forceRemove := by
        unfold old_with_download_many
        simp
      rw [htr]
      exact ⟨List.mem_append_right _ (List.mem_map_of_mem _ hg), hrem s0⟩
    | blockError m =>
      have htr : old_with_download_many gids (ScopeExit.blockError m) =
          gids.map AriaOp.addUri ++ gids.map AriaOp.forceRemove := by
        unfold old_with_download_many
        simp
      rw [htr]
      exact ⟨List.mem_append_right _ (List.mem_map_of_mem _ hg), hrem s0⟩

theorem with_download_many_cleanup_witness :
    (AriaOp.forceRemove "g2" ∈
        with_download_many ["g1", "g2"] (.awaitError ⟨"24", "auth failed"⟩) ∧
      "g2" ∉ (runAriaOps ⟨[]⟩
        (with_download_many ["g1", "g2"]
          (.awaitError ⟨"24", "auth failed"⟩))).active) ∧
    ((∀ e, ScopeExit.awaitError ⟨"24", "auth failed"⟩ ≠ ScopeExit.awaitError e) →
      AriaOp.forceRemove "g2" ∈
        old_with_download_many ["g1", "g2"] (.awaitError ⟨"24", "auth failed"⟩) ∧
      "g2" ∉ (runAriaOps ⟨[]⟩
        (old_with_download_many ["g1", "g2"]
          (.awaitError ⟨"24", "auth failed"⟩))).active) :=
  with_download_many_cleanup ["g1", "g2"] (.awaitError ⟨"24", "auth failed"⟩)
    "g2" (by decide) ⟨[]⟩

theorem pollScan_no_error (r : List JobStat) (acc : Bool)
    (h : ∀ s ∈ r, s.status ≠ "error") :
    pollScan r acc = .ok (acc && r.all (fun s => s.status == "complete")) := by
  induction r generalizing acc with
  | nil => simp [pollScan]
  | cons s rest ih =>
    have hs : s.status ≠ "error" := h s (List.mem_cons_self _ _)
    simp only [pollScan, if_neg hs]
    rw [ih _ (fun x hx => h x (List.mem_cons_of_mem _ hx))]
    simp [Bool.and_assoc]

theorem pollScan_first_error (r₁ : List JobStat) (e : JobStat)
    (r₂ : List JobStat) (acc : Bool) (h₁ : ∀ s ∈ r₁, s.status ≠ "error")
    (he : e.status = "error") :
    pollScan (r₁ ++ e :: r₂) acc = .error ⟨e.errorCode, e.errorMessage⟩ := by
  induction r₁ generalizing acc with
  | nil => simp [pollScan, if_pos he]
  | cons s rest ih =>
    have hs : s.status ≠ "error" := h₁ s (List.mem_cons_self _ _)
    simp only [List.cons_append, pollScan, if_neg hs]
    exact ih _ (fun x hx => h₁ x (List.mem_cons_of_mem _ hx))

theorem await_complete_cons_incomplete (r : List JobStat)
    (rest : List (List JobStat)) (h : pollScan r true = .ok false) :
    await_complete (r :: rest) = await_complete rest := by
  simp [await_complete, h]

theorem await_complete_skip (pre rest : List (List JobStat))
    (hpre : ∀ r ∈ pre, (∀ s ∈ r, s.status ≠ "error") ∧
      ¬(∀ s ∈ r, s.status = "complete")) :
    await_complete (pre ++ rest) = await_complete rest := by
  induction pre with
  | nil => rfl
  | cons r pre ih =>
    obtain ⟨hne, hnc⟩ := hpre r (List.mem_cons_self _ _)
    have hall : r.all (fun s => s.status == "complete") = false := by
      cases hb : r.all (fun s => s.status == "complete") with
      | false => rfl
      | true =>
        exact absurd
          (fun s hs => eq_of_beq (List.all_eq_true.mp hb s hs)) hnc
    have hscan : pollScan r true = .ok false := by
      rw [pollScan_no_error r true hne, Bool.true_and, hall]
    rw [List.cons_append, await_complete_cons_incomplete _ _ hscan]
    exact ih (fun q hq => hpre q (List.mem_cons_of_mem _ hq))

/-- C3: over any schedule of poll rounds, if every earlier round reports
neither an error nor full completion, then (a) in the first round where
some job reports `error`, `await_complete` fails with a `DownloaderError`
carrying exactly that job's `errorCode` and `errorMessage`, immediately —
the statuses of the remaining jobs of that round (`r₂`) and all later
rounds (`post`) are arbitrary and never consulted; and (b) if instead a
round reports every job `complete`, it returns normally. -/
theorem await_complete_spec (pre : List (List JobStat))
    (hpre : ∀ r ∈ pre, (∀ s ∈ r, s.status ≠ "error") ∧
      ¬(∀ s ∈ r, s.status = "complete")) :
    (∀ (r₁ : List JobStat) (e : JobStat) (r₂ : List JobStat)
      (post : List (List JobStat)),
      (∀ s ∈ r₁, s.status ≠ "error") → e.status = "error" →
      await_complete (pre ++ (r₁ ++ e :: r₂) :: post) =
        some (Except.error ⟨e.errorCode, e.errorMessage⟩)) ∧
    (∀ (r : List JobStat) (post : List (List JobStat)),
      (∀ s ∈ r, s.status = "complete") →
      await_complete (pre ++ r :: post) = some (Except.ok ())) := by
  constructor
  · intro r₁ e r₂ post h₁ he
    rw [await_complete_skip pre _ hpre]
    have hscan := pollScan_first_error r₁ e r₂ true h₁ he
    simp [await_complete, hscan]
  · intro r post hc
    rw [await_complete_skip pre _ hpre]
    have hne : ∀ s ∈ r, s.status ≠ "error" := by
      intro s hs
      rw [hc s hs]
      decide
    have hall : r.all (fun s => s.status == "complete") = true :=
      List.all_eq_true.mpr (fun s hs => beq_of_eq (hc s hs))
    have hscan : pollScan r true = .ok true := by
      rw [pollScan_no_error r true hne, Bool.true_and, hall]
    simp [await_complete, hscan]

theorem await_complete_spec_witness :
    await_complete
        [[⟨"active", "", ""⟩, ⟨"error", "24", "auth failed"⟩, ⟨"waiting", "", ""⟩]] =
      some (Except.error ⟨"24", "auth failed"⟩) ∧
    await_complete [[⟨"active", "", ""⟩], [⟨"complete", "", ""⟩, ⟨"complete", "", ""⟩]] =
      some (Except.ok ()) :=
  ⟨(await_complete_spec [] (by simp)).1 [⟨"active", "", ""⟩]
      ⟨"error", "24", "auth failed"⟩ [⟨"waiting", "", ""⟩] [] (by decide) rfl,
   (await_complete_spec [[⟨"active", "", ""⟩]] (by decide)).2
      [⟨"complete", "", ""⟩, ⟨"complete", "", ""⟩] [] (by decide)⟩

theorem find?_map_dictSet {V : Type} (d : List (String × V)) (k : String)
    (v : V) (h : d.any (fun p => p.fst == k)) :
    (d.map (fun p => if p.fst == k then (k, v) else p)).find?
      (fun p => p.fst == k) = some (k, v) := by
  induction d with
  | nil => simp at h
  | cons p rest ih =>
    by_cases hp : (p.fst == k) = true
    · rw [List.map_cons, if_pos hp]
      exact List.find?_cons_of_pos _ (by simp)
    · have hrest : rest.any (fun q => q.fst == k) = true := by
        simpa [List.any_cons, hp] using h
      rw [List.map_cons, if_neg hp,
        @List.find?_cons_of_neg (String × V) (fun q => q.fst == k) p
          (rest.map (fun q => if q.fst == k then (k, v) else q)) hp]
      exact ih hrest

theorem dictGet_dictSet_self {V : Type} (d : List (String × V)) (k : String)
    (v : V) : dictGet (dictSet d k v) k = some v := by
  unfold dictGet dictSet
  by_cases h : d.any (fun p => p.fst == k)
  · rw [if_pos h, find?_map_dictSet d k v h]
    rfl
  · rw [if_neg h]
    have hnone : d.find? (fun p => p.fst == k) = none := by
      rw [List.find?_eq_none]
      intro x hx hpx
      exact h (List.any_eq_true.mpr ⟨x, hx, hpx⟩)
    rw [List.find?_append, hnone, Option.none_or]
    simp [List.find?_cons]

theorem downloaderSaveEntry_load (d : DownloaderState) (e : CacheEntry) :
    downloaderSaveEntry { downloaderLoad d e with ready := true } = e := by
  cases e
  rfl

/-- C5: with caching enabled and no prior cache entry for the URL, the
first `make_ready` performs the network extraction and persists the entry
under the content hash; the second `make_ready` for the same URL finds the
cache file, takes the cache branch (no network extraction), and its
deserialized cached fields (url, md_hash, title, metadata, src_image,
src_video — exactly `_CACHE_ATTRS`) are equal to the first call's: load
after save is the identity on those fields. -/
theorem extract_twice_cache_identity (md5 : String → String)
    (extractor : String → ExtractorResult) (url : String) (store0 : CacheStore)
    (hmiss : dictGet store0 (md5 url) = none) :
    (downloaderMakeReady extractor true (downloaderInit md5 url) store0).2.2 = true ∧
    (dictGet (downloaderMakeReady extractor true (downloaderInit md5 url)
        store0).2.1 (md5 url)).isSome = true ∧
    (downloaderMakeReady extractor true (downloaderInit md5 url)
      (downloaderMakeReady extractor true (downloaderInit md5 url)
        store0).2.1).2.2 = false ∧
    downloaderSaveEntry
        (downloaderMakeReady extractor true (downloaderInit md5 url)
          (downloaderMakeReady extractor true (downloaderInit md5 url)
            store0).2.1).1 =
      downloaderSaveEntry
        (downloaderMakeReady extractor true (downloaderInit md5 url) store0).1 := by
  have hmiss0 : dictGet store0 (downloaderInit md5 url).md_hash = none := hmiss
  have h1 := downloaderMakeReady_extract_branch extractor true
    (downloaderInit md5 url) store0 (by rw [hmiss0]; rfl)
  rw [if_pos rfl] at h1
  have hget : dictGet
      (downloaderMakeReady extractor true (downloaderInit md5 url) store0).2.1
      (md5 url) =
      some (downloaderSaveEntry
        (downloaderExtractRun extractor (downloaderInit md5 url))) := by
    rw [h1]
    exact dictGet_dictSet_self store0 (md5 url) _
  have h2 := downloaderMakeReady_cache_hit extractor (downloaderInit md5 url)
    (downloaderMakeReady extractor true (downloaderInit md5 url) store0).2.1
    (downloaderSaveEntry (downloaderExtractRun extractor (downloaderInit md5 url)))
    hget
  refine ⟨?_, ?_, ?_, ?_⟩
  · rw [h1]
  · rw [hget]
    rfl
  · rw [h2]
  · rw [h2, h1]
    exact downloaderSaveEntry_load _ _

theorem extract_twice_cache_identity_witness :
    (downloaderMakeReady (fun _ => ⟨"t", [], [], [⟨"v", "v", 9⟩]⟩) true
        (downloaderInit (fun _ => "h0") "u") []).2.2 = true ∧
    (dictGet (downloaderMakeReady (fun _ => ⟨"t", [], [], [⟨"v", "v", 9⟩]⟩) true
        (downloaderInit (fun _ => "h0") "u") []).2.1 ((fun _ => "h0") "u")).isSome = true ∧
    (downloaderMakeReady (fun _ => ⟨"t", [], [], [⟨"v", "v", 9⟩]⟩) true
      (downloaderInit (fun _ => "h0") "u")
      (downloaderMakeReady (fun _ => ⟨"t", [], [], [⟨"v", "v", 9⟩]⟩) true
        (downloaderInit (fun _ => "h0") "u") []).2.1).2.2 = false ∧
    downloaderSaveEntry
        (downloaderMakeReady (fun _ => ⟨"t", [], [], [⟨"v", "v", 9⟩]⟩) true
          (downloaderInit (fun _ => "h0") "u")
          (downloaderMakeReady (fun _ => ⟨"t", [], [], [⟨"v", "v", 9⟩]⟩) true
            (downloaderInit (fun _ => "h0") "u") []).2.1).1 =
      downloaderSaveEntry
        (downloaderMakeReady (fun _ => ⟨"t", [], [], [⟨"v", "v", 9⟩]⟩) true
          (downloaderInit (fun _ => "h0") "u") []).1 :=
  extract_twice_cache_identity (fun _ => "h0")
    (fun _ => ⟨"t", [], [], [⟨"v", "v", 9⟩]⟩) "u" [] rfl

theorem get_extractor_cls_eq (r : String) :
    get_extractor_cls ⟨r⟩ =
      (match hostExtractors.find?
          (fun e => (URLS e).contains (stripWww (lowerHost r))) with
       | some e => Except.ok e
       | none => Except.error ⟨⟨r⟩, SUPPORTED_SITES⟩) := rfl

theorem stripWww_lowerHost_www (raw : String) :
    stripWww (lowerHost ("www." ++ raw)) = lowerHost raw := by
  unfold stripWww lowerHost
  have hdata : ("www." ++ raw).data = "www.".data ++ raw.data :=
    String.data_append _ _
  rw [hdata, List.map_append]
  have hw : "www.".data.map Char.toLower = "www.".data := by decide
  rw [hw]
  rw [if_pos (List.isPrefixOf_iff_prefix.mpr (List.prefix_append _ _))]
  rw [List.drop_left' (by decide)]

/-- C6 counterexample: (i) in the legacy `get_downloader`, hosts differing
only by letter case do not resolve to the same downloader — the lookup is
case-sensitive; (ii) even in `get_extractor_cls`, `www.` is stripped only
once, so hosts differing by one more `www.` prefix need not resolve the
same way. -/
theorem get_extractor_cls_cex :
    (get_downloader "www.XVideos.com").toOption ≠
      (get_downloader "xvideos.com").toOption ∧
    (get_extractor_cls ⟨"www.www.xvideos.com"⟩).toOption ≠
      (get_extractor_cls ⟨"www.xvideos.com"⟩).toOption := by
  decide

/-- C6 (amended): `get_extractor_cls` resolves through the lowercased host
(yarl normalization) with one leading `www.` stripped, so (a) hosts equal
up to letter case resolve identically and (b) adding one `www.` prefix to
a host whose lowercase form does not itself start with `www.` is
invisible; (c) an unmatched host raises `NotSupportedSite` carrying
`SUPPORTED_SITES`, whose message lists every supported host.  The legacy
`get_downloader` (d) also strips one `www.` but (per the counterexample)
matches the netloc case-sensitively; (e) its miss error carries the
`DOWNLOADER_MAP` keys. -/
theorem get_extractor_cls_spec :
    (∀ r₁ r₂ : String, lowerHost r₁ = lowerHost r₂ →
      (get_extractor_cls ⟨r₁⟩).toOption = (get_extractor_cls ⟨r₂⟩).toOption) ∧
    (∀ raw : String, ¬"www.".data.isPrefixOf (lowerHost raw).data →
      (get_extractor_cls ⟨"www." ++ raw⟩).toOption =
        (get_extractor_cls ⟨raw⟩).toOption) ∧
    (∀ u : PyURL, stripWww u.host ∉ SUPPORTED_SITES →
      get_extractor_cls u = Except.error ⟨u, SUPPORTED_SITES⟩ ∧
      notSupportedSiteStr ⟨u, SUPPORTED_SITES⟩ =
        u.host ++ " is not supported. supported ones are " ++
          String.intercalate ", " SUPPORTED_SITES) ∧
    (∀ netloc : String, ¬"www.".data.isPrefixOf netloc.data →
      get_downloader ("www." ++ netloc) = get_downloader netloc) ∧
    (∀ netloc : String,
      stripWww netloc ∉ DOWNLOADER_MAP.map (fun p => p.fst) →
      get_downloader netloc =
        Except.error (DOWNLOADER_MAP.map (fun p => p.fst))) := by
  refine ⟨?_, ?_, ?_, ?_, ?_⟩
  · intro r₁ r₂ h
    rw [get_extractor_cls_eq, get_extractor_cls_eq, h]
    cases hostExtractors.find?
      (fun e => (URLS e).contains (stripWww (lowerHost r₂))) <;> rfl
  · intro raw hn
    have h2 : stripWww (lowerHost raw) = lowerHost raw := by
      unfold stripWww
      rw [if_neg hn]
    rw [get_extractor_cls_eq, get_extractor_cls_eq,
      stripWww_lowerHost_www raw, h2]
    cases hostExtractors.find?
      (fun e => (URLS e).contains (lowerHost raw)) <;> rfl
  · intro u hnot
    have hfind : hostExtractors.find?
        (fun e => (URLS e).contains (stripWww u.host)) = none := by
      rw [List.find?_eq_none]
      intro e he hc
      have hc2 : List.elem (stripWww u.host) (URLS e) = true := hc
      exact hnot (List.mem_flatten_of_mem (List.mem_map_of_mem URLS he)
        (List.elem_iff.mp hc2))
    unfold get_extractor_cls
    rw [hfind]
    exact ⟨rfl, rfl⟩
  · intro netloc hn
    have h1 : stripWww ("www." ++ netloc) = netloc := by
      unfold stripWww
      rw [String.data_append]
      rw [if_pos (List.isPrefixOf_iff_prefix.mpr (List.prefix_append _ _))]
      rw [List.drop_left' (by decide)]
    have h2 : stripWww netloc = netloc := by
      unfold stripWww
      rw [if_neg hn]
    unfold get_downloader
    rw [h1, h2]
  · intro netloc hnot
    have hfind : DOWNLOADER_MAP.find?
        (fun p => p.fst == stripWww netloc) = none := by
      rw [List.find?_eq_none]
      intro p hp hc
      apply hnot
      rw [← eq_of_beq hc]
      exact List.mem_map_of_mem _ hp
    unfold get_downloader
    rw [hfind]

theorem get_extractor_cls_spec_witness :
    ((get_extractor_cls ⟨"www.XVideos.com"⟩).toOption =
      (get_extractor_cls ⟨"xvideos.com"⟩).toOption) ∧
    (get_extractor_cls ⟨"nosuchsite.example"⟩ =
      Except.error ⟨⟨"nosuchsite.example"⟩, SUPPORTED_SITES⟩) ∧
    (get_downloader "www.xvideos.com" = get_downloader "xvideos.com") :=
  ⟨by
    have h := get_extractor_cls_spec.1 "www.XVideos.com" "www.xvideos.com"
      (by decide)
    rw [h]
    exact get_extractor_cls_spec.2.1 "xvideos.com" (by decide),
   (get_extractor_cls_spec.2.2.1 ⟨"nosuchsite.example"⟩ (by decide)).1,
   get_extractor_cls_spec.2.2.2.1 "xvideos.com" (by decide)⟩

theorem callManyYields_all_ok (outcomes : List FetchOutcome)
    (order : List Nat)
    (h : ∀ i ∈ order, ∃ r, outcomes[i]? = some (FetchOutcome.ok r)) :
    ((callManyYields outcomes order).1.map Prod.fst) = order ∧
    (callManyYields outcomes order).2 = none := by
  induction order with
  | nil => exact ⟨rfl, rfl⟩
  | cons i rest ih =>
    obtain ⟨r, hr⟩ := h i (List.mem_cons_self _ _)
    have hrec := ih (fun j hj => h j (List.mem_cons_of_mem _ hj))
    simp only [callManyYields, hr]
    exact ⟨by rw [List.map_cons, hrec.1], hrec.2⟩

theorem callManyYields_first_fail (outcomes : List FetchOutcome)
    (o₁ : List Nat) (i : Nat) (o₂ : List Nat) (e : String)
    (h₁ : ∀ j ∈ o₁, ∃ r, outcomes[j]? = some (FetchOutcome.ok r))
    (hi : outcomes[i]? = some (FetchOutcome.fail e)) :
    ((callManyYields outcomes (o₁ ++ i :: o₂)).1.map Prod.fst) = o₁ ∧
    (callManyYields outcomes (o₁ ++ i :: o₂)).2 = some e := by
  induction o₁ with
  | nil =>
    simp [callManyYields, hi]
  | cons j rest ih =>
    obtain ⟨r, hr⟩ := h₁ j (List.mem_cons_self _ _)
    have hrec := ih (fun x hx => h₁ x (List.mem_cons_of_mem _ hx))
    rw [List.cons_append]
    simp only [callManyYields, hr, List.append_eq]
    exact ⟨by rw [List.map_cons, hrec.1], hrec.2⟩

/-- C7 counterexample: two urls, the request at index 0 fails while the
one at index 1 completes first — the generator yields the single pair for
index 1 and then re-raises the failure, so it does NOT yield exactly N
tagged pairs with every index appearing once when some request fails. -/
theorem fetch_many_tagged_results_cex :
    ((callManyYields [FetchOutcome.fail "boom", FetchOutcome.ok 7]
        [1, 0]).1.map Prod.fst) = [1] ∧
    ¬(((callManyYields [FetchOutcome.fail "boom", FetchOutcome.ok 7]
        [1, 0]).1.map Prod.fst).Perm (List.range 2)) ∧
    (callManyYields [FetchOutcome.fail "boom", FetchOutcome.ok 7]
        [1, 0]).2 = some "boom" := by
  decide

/-- C7 (amended): when every request succeeds, the batch yields exactly N
tagged pairs, the indices being exactly the completion order — each index
0..N-1 once, whatever order tasks complete in — and no exception escapes.
When a request fails, the pairs of the tasks completed before it are
yielded and then its exception escapes the generator (sibling tasks are
not cancelled, but their later results are suppressed). -/
theorem fetch_many_tagged_results (outcomes : List FetchOutcome)
    (order : List Nat) (horder : order.Perm (List.range outcomes.length)) :
    ((∀ o ∈ outcomes, ∃ r, o = FetchOutcome.ok r) →
      ((callManyYields outcomes order).1.map Prod.fst) = order ∧
      ((callManyYields outcomes order).1.map Prod.fst).Perm
        (List.range outcomes.length) ∧
      (callManyYields outcomes order).2 = none) ∧
    (∀ (o₁ : List Nat) (i : Nat) (o₂ : List Nat) (e : String),
      order = o₁ ++ i :: o₂ →
      (∀ j ∈ o₁, ∃ r, outcomes[j]? = some (FetchOutcome.ok r)) →
      outcomes[i]? = some (FetchOutcome.fail e) →
      ((callManyYields outcomes order).1.map Prod.fst) = o₁ ∧
      (callManyYields outcomes order).2 = some e) := by
  constructor
  · intro hall
    have h : ∀ i ∈ order, ∃ r, outcomes[i]? = some (FetchOutcome.ok r) := by
      intro i hio
      have hilt : i < outcomes.length :=
        List.mem_range.mp (horder.mem_iff.mp hio)
      obtain ⟨r, hr⟩ := hall (outcomes[i]) (List.getElem_mem hilt)
      exact ⟨r, by rw [List.getElem?_eq_getElem hilt, hr]⟩
    obtain ⟨h1, h2⟩ := callManyYields_all_ok outcomes order h
    exact ⟨h1, by rw [h1]; exact horder, h2⟩
  · intro o₁ i o₂ e heq h₁ hi
    subst heq
    exact callManyYields_first_fail outcomes o₁ i o₂ e h₁ hi

theorem fetch_many_tagged_results_witness :
    ((callManyYields [FetchOutcome.ok 5, FetchOutcome.ok 6]
        [1, 0]).1.map Prod.fst) = [1, 0] ∧
    ((callManyYields [FetchOutcome.ok 5, FetchOutcome.ok 6]
        [1, 0]).1.map Prod.fst).Perm (List.range 2) ∧
    (callManyYields [FetchOutcome.ok 5, FetchOutcome.ok 6] [1, 0]).2 =
      none :=
  (fetch_many_tagged_results [FetchOutcome.ok 5, FetchOutcome.ok 6] [1, 0]
    (by decide)).1
    (by
      intro o ho
      rcases List.mem_cons.mp ho with h | h
      · exact ⟨5, h⟩
      · rcases List.mem_cons.mp h with h2 | h2
        · exact ⟨6, h2⟩
        · exact absurd h2 (List.not_mem_nil o))

/-- C8 counterexample: `GenericMedia` in `Downloader/media.py` has
`DOWNLOAD_DEPENDS_ON_READY = False`, so calling `download` on an un-ready
generic media submits the transfer without ever running `make_ready`. -/
theorem download_ready_invariant_cex :
    MediaEvent.makeReady ∉
      mediaDownloadEvents ⟨MediaKind.generic, false⟩ ∧
    mediaDownloadEvents ⟨MediaKind.generic, false⟩ = [MediaEvent.transfer] := by
  decide

/-- C8 (amended): in `Downloader/media.py`, `download` runs `make_ready`
before the transfer exactly when the variant's `DOWNLOAD_DEPENDS_ON_READY`
is true and the object is not ready — so an un-ready `M3U8Media` always
makes itself ready first, while an un-ready `GenericMedia` (flag `False`)
downloads without it.  In the `Downloader/types.py` hierarchy, every
un-ready media runs `make_ready` before the transfer. -/
theorem download_ready_invariant (m : MediaObj) :
    (MediaEvent.makeReady ∈ mediaDownloadEvents m ↔
      DOWNLOAD_DEPENDS_ON_READY m.kind = true ∧ m.ready = false) ∧
    (m.kind = MediaKind.m3u8 → m.ready = false →
      mediaDownloadEvents m = [MediaEvent.makeReady, MediaEvent.transfer]) ∧
    (m.ready = false →
      typesDownloadEvents m = [MediaEvent.makeReady, MediaEvent.transfer]) := by
  obtain ⟨k, r⟩ := m
  cases k <;> cases r <;>
    simp [mediaDownloadEvents, typesDownloadEvents, DOWNLOAD_DEPENDS_ON_READY]

theorem dictUpdate_singleton {V : Type} (d : List (String × V)) (k : String)
    (v : V) : dictUpdate d [(k, v)] = dictSet d k v := rfl

theorem find?_map_dictSet_ne {V : Type} (d : List (String × V))
    (k k' : String) (v : V) (h : k ≠ k') :
    (d.map (fun q => if q.fst == k' then (k', v) else q)).find?
      (fun q => q.fst == k) = d.find? (fun q => q.fst == k) := by
  induction d with
  | nil => rfl
  | cons q rest ih =>
    by_cases hq : (q.fst == k') = true
    · have hqk : ¬(((k', v) : String × V).fst == k) = true := by
        simp
        exact fun hx => h hx.symm
      have hqk2 : ¬(q.fst == k) = true := by
        simp
        rw [eq_of_beq hq]
        exact fun hx => h hx.symm
      rw [List.map_cons, if_pos hq,
        @List.find?_cons_of_neg (String × V) (fun q => q.fst == k) (k', v)
          (rest.map (fun q => if q.fst == k' then (k', v) else q)) hqk,
        @List.find?_cons_of_neg (String × V) (fun q => q.fst == k) q rest hqk2]
      exact ih
    · rw [List.map_cons, if_neg hq]
      by_cases hqk : (q.fst == k) = true
      · rw [@List.find?_cons_of_pos (String × V) (fun q => q.fst == k) q
            (rest.map (fun q => if q.fst == k' then (k', v) else q)) hqk,
          @List.find?_cons_of_pos (String × V) (fun q => q.fst == k) q rest hqk]
      · rw [@List.find?_cons_of_neg (String × V) (fun q => q.fst == k) q
            (rest.map (fun q => if q.fst == k' then (k', v) else q)) hqk,
          @List.find?_cons_of_neg (String × V) (fun q => q.fst == k) q rest hqk]
        exact ih

theorem dictGet_dictSet_ne {V : Type} (d : List (String × V))
    (k k' : String) (v : V) (h : k ≠ k') :
    dictGet (dictSet d k' v) k = dictGet d k := by
  unfold dictGet dictSet
  by_cases hany : d.any (fun p => p.fst == k') = true
  · rw [if_pos hany, find?_map_dictSet_ne d k k' v h]
  · rw [if_neg hany, List.find?_append]
    have h1 : List.find? (fun q : String × V => q.fst == k) [(k', v)] =
        none := by
      have hne : ¬(((k', v) : String × V).fst == k) = true := by
        simp
        exact fun hx => h hx.symm
      rw [@List.find?_cons_of_neg (String × V) (fun q => q.fst == k) (k', v)
        [] hne]
      rfl
    rw [h1]
    cases d.find? (fun q => q.fst == k) <;> rfl

theorem download_ready_invariant_witness :
    mediaDownloadEvents ⟨MediaKind.m3u8, false⟩ =
      [MediaEvent.makeReady, MediaEvent.transfer] ∧
    typesDownloadEvents ⟨MediaKind.generic, false⟩ =
      [MediaEvent.makeReady, MediaEvent.transfer] :=
  ⟨(download_ready_invariant ⟨MediaKind.m3u8, false⟩).2.1 rfl rfl,
   (download_ready_invariant ⟨MediaKind.generic, false⟩).2.2 rfl⟩

/-- C9 counterexample: in `Downloader/media.py`, `make_ready` on a
`GenericMedia` whose size is already known (5 ≥ 0) but whose context has
no cached head still issues one HEAD request and overwrites `size` with
the reported content-length (7) — the head stage is guarded by the
context, not by `size`. -/
theorem generic_make_ready_cex :
    (mediaGenericMakeReady (fun _ => ⟨7, "video/mp4"⟩)
        ⟨"u", 5, "", false, []⟩).2 = 1 ∧
    ((mediaGenericMakeReady (fun _ => ⟨7, "video/mp4"⟩)
        ⟨"u", 5, "", false, []⟩).1.map GMediaM.size) = Except.ok 7 := by
  constructor
  · rfl
  · rfl

/-- C9 (amended): the pydantic `GenericMedia.make_ready`
(`Downloader/types.py`) behaves as claimed — with `size ≥ 0` it issues no
HEAD and changes nothing but the ready flag, and a second call is a
no-op.  The staged `GenericMedia.make_ready` (`Downloader/media.py`)
instead keys the probing on the cached `head` context entry: with no
cached head it issues exactly one HEAD and overwrites `size` from the
content-length regardless of the current size, leaving `head = None` in
the context; a state with that cleared entry (i.e. any object after a
completed `make_ready`) issues no HEAD on the next call but fails with
`AttributeError` in the size stage. -/
theorem generic_make_ready_spec (head : String → HeadResp) :
    (∀ m : GMediaT, 0 ≤ m.size →
      typesGenericMakeReady head m = ({ m with ready := true }, 0)) ∧
    (∀ m : GMediaT, 0 ≤ (head m.url).content_length →
      typesGenericMakeReady head ((typesGenericMakeReady head m).1) =
        ((typesGenericMakeReady head m).1, 0)) ∧
    (∀ m : GMediaM, dictGet m.ctx "head" = none →
      (mediaGenericMakeReady head m).2 = 1 ∧
      ((mediaGenericMakeReady head m).1.map GMediaM.size) =
        Except.ok (head m.url).content_length ∧
      ((mediaGenericMakeReady head m).1.map
        (fun m' => dictGet m'.ctx "head")) = Except.ok (some GVal.none)) ∧
    (∀ m : GMediaM, dictGet m.ctx "head" = some GVal.none →
      (mediaGenericMakeReady head m).1 = Except.error PyErr.attributeError ∧
      (mediaGenericMakeReady head m).2 = 0) := by
  have ehs : ∀ (d : List (String × GVal)) v,
      dictGet (dictSet d "size" v) "head" = dictGet d "head" :=
    fun d v => dictGet_dictSet_ne d "head" "size" v (by decide)
  have ehe : ∀ (d : List (String × GVal)) v,
      dictGet (dictSet d "extension" v) "head" = dictGet d "head" :=
    fun d v => dictGet_dictSet_ne d "head" "extension" v (by decide)
  have esh : ∀ (d : List (String × GVal)) v,
      dictGet (dictSet d "head" v) "size" = dictGet d "size" :=
    fun d v => dictGet_dictSet_ne d "size" "head" v (by decide)
  have ese : ∀ (d : List (String × GVal)) v,
      dictGet (dictSet d "extension" v) "size" = dictGet d "size" :=
    fun d v => dictGet_dictSet_ne d "size" "extension" v (by decide)
  have eeh : ∀ (d : List (String × GVal)) v,
      dictGet (dictSet d "head" v) "extension" = dictGet d "extension" :=
    fun d v => dictGet_dictSet_ne d "extension" "head" v (by decide)
  refine ⟨?_, ?_, ?_, ?_⟩
  · intro m h
    have h0 : ¬m.size < 0 := not_lt.mpr h
    simp [typesGenericMakeReady, h0]
  · intro m hcl
    by_cases hm : m.size < 0
    · have h1 : ¬(head m.url).content_length < 0 := not_lt.mpr hcl
      simp [typesGenericMakeReady, hm, h1]
    · simp [typesGenericMakeReady, hm]
  · intro m h
    refine ⟨?_, ?_, ?_⟩ <;>
      simp [mediaGenericMakeReady, getHeadCtx, h, dictUpdate_singleton,
        dictGet_dictSet_self, ehs, ehe, esh, ese, eeh, Except.map]
  · intro m h
    refine ⟨?_, ?_⟩ <;>
      simp [mediaGenericMakeReady, getHeadCtx, h, dictUpdate_singleton,
        dictGet_dictSet_self]

theorem generic_make_ready_spec_witness :
    (typesGenericMakeReady (fun _ => ⟨7, "video/mp4"⟩) ⟨"u", 5, false⟩ =
      (⟨"u", 5, true⟩, 0)) ∧
    ((mediaGenericMakeReady (fun _ => ⟨7, "video/mp4"⟩)
        ⟨"u", -1, "", false, []⟩).2 = 1) ∧
    ((mediaGenericMakeReady (fun _ => ⟨7, "video/mp4"⟩)
        ⟨"u", 7, ".mp4", true, [("head", GVal.none)]⟩).1 =
      Except.error PyErr.attributeError) :=
  ⟨(generic_make_ready_spec (fun _ => ⟨7, "video/mp4"⟩)).1
      ⟨"u", 5, false⟩ (by decide),
   ((generic_make_ready_spec (fun _ => ⟨7, "video/mp4"⟩)).2.2.1
      ⟨"u", -1, "", false, []⟩ rfl).1,
   ((generic_make_ready_spec (fun _ => ⟨7, "video/mp4"⟩)).2.2.2
      ⟨"u", 7, ".mp4", true, [("head", GVal.none)]⟩ rfl).1⟩

theorem dictGet_dictSet {V : Type} (d : List (String × V)) (k q1 : String)
    (v : V) :
    dictGet (dictSet d q1 v) k =
      if q1 == k then some v else dictGet d k := by
  by_cases hq : (q1 == k) = true
  · rw [if_pos hq]
    have hkq : q1 = k := eq_of_beq hq
    subst hkq
    exact dictGet_dictSet_self d q1 v
  · rw [if_neg hq]
    have hne : k ≠ q1 := fun hx => hq (beq_of_eq hx.symm)
    exact dictGet_dictSet_ne d k q1 v hne

theorem patchGetLast_cons {V : Type} (q : String × V)
    (p : List (String × V)) (k : String) :
    patchGetLast (q :: p) k =
      (patchGetLast p k).or (if q.fst == k then some q.snd else none) := by
  unfold patchGetLast
  rw [List.reverse_cons, List.find?_append]
  by_cases hq : (q.fst == k) = true
  · rw [@List.find?_cons_of_pos _ (fun x => x.fst == k) q [] hq, if_pos hq]
    cases p.reverse.find? (fun x => x.fst == k) <;> rfl
  · rw [@List.find?_cons_of_neg _ (fun x => x.fst == k) q [] hq, if_neg hq]
    cases p.reverse.find? (fun x => x.fst == k) <;> rfl

theorem dictGet_dictUpdate {V : Type} (p d : List (String × V))
    (k : String) :
    dictGet (dictUpdate d p) k = (patchGetLast p k).or (dictGet d k) := by
  induction p generalizing d with
  | nil =>
    show dictGet d k = (patchGetLast [] k).or (dictGet d k)
    cases dictGet d k <;> rfl
  | cons q rest ih =>
    have h0 : dictUpdate d (q :: rest) =
        dictUpdate (dictSet d q.fst q.snd) rest := rfl
    rw [h0, ih (dictSet d q.fst q.snd), dictGet_dictSet d k q.fst q.snd,
      patchGetLast_cons]
    cases patchGetLast rest k <;> by_cases hq : (q.fst == k) = true <;>
      simp [hq, Option.or]

theorem stagesLastWrite_cons {V : Type} (p : List (String × V))
    (ps : List (List (String × V))) (k : String) :
    stagesLastWrite (p :: ps) k = (stagesLastWrite ps k).or (patchGetLast p k) := by
  show (match stagesLastWrite ps k with
        | some v => some v
        | none => patchGetLast p k) =
      (stagesLastWrite ps k).or (patchGetLast p k)
  cases stagesLastWrite ps k <;> rfl

theorem runStages_ok {V E : Type} (tbl : List (String × StageFn V E))
    (order : List String) (ctx : List (String × V))
    (hfound : ∀ n ∈ order, (tbl.find? (fun p => p.fst == n)).isSome)
    (ctxF : List (String × V))
    (hok : (runStages tbl order ctx).2 = Except.ok ctxF) :
    ((runStages tbl order ctx).1.map Prod.fst) = order ∧
    (∀ k, dictGet ctxF k =
      (stagesLastWrite ((runStages tbl order ctx).1.map Prod.snd) k).or
        (dictGet ctx k)) := by
  induction order generalizing ctx with
  | nil =>
    have hc : ctx = ctxF := Except.ok.inj hok
    subst hc
    exact ⟨rfl, fun k => by cases dictGet ctx k <;> rfl⟩
  | cons n rest ih =>
    obtain ⟨p, hp⟩ := Option.isSome_iff_exists.mp
      (hfound n (List.mem_cons_self _ _))
    cases hps : p.snd ctx with
    | error e =>
      rw [show (runStages tbl (n :: rest) ctx).2 = Except.error e by
        simp only [runStages, hp, hps]] at hok
      exact absurd hok (by simp)
    | ok patch =>
      have hred : runStages tbl (n :: rest) ctx =
          ((n, patch) :: (runStages tbl rest (dictUpdate ctx patch)).1,
            (runStages tbl rest (dictUpdate ctx patch)).2) := by
        simp only [runStages, hp, hps]
      rw [hred] at hok ⊢
      obtain ⟨h1, h2⟩ := ih (dictUpdate ctx patch)
        (fun m hm => hfound m (List.mem_cons_of_mem _ hm)) hok
      refine ⟨by rw [List.map_cons, h1], ?_⟩
      intro k
      rw [List.map_cons, stagesLastWrite_cons, h2 k,
        dictGet_dictUpdate patch ctx k, Option.or_assoc]

theorem keys_dictSet {V : Type} (d : List (String × V)) (k : String)
    (v : V) (hnd : (d.map Prod.fst).Nodup) :
    ((dictSet d k v).map Prod.fst).Nodup := by
  unfold dictSet
  by_cases h : d.any (fun p => p.fst == k) = true
  · rw [if_pos h, List.map_map]
    have heq : d.map (Prod.fst ∘ fun p => if p.fst == k then (k, v) else p) =
        d.map Prod.fst := by
      apply List.map_congr_left
      intro q hq
      by_cases hqk : (q.fst == k) = true
      · simp [hqk, eq_of_beq hqk]
      · have hne : q.fst ≠ k := fun hx => hqk (beq_of_eq hx)
        simp [hne]
    rw [heq]
    exact hnd
  · rw [if_neg h, List.map_append]
    apply List.Nodup.append hnd (by simp)
    intro x hx hxm
    rcases List.mem_map.mp hx with ⟨q, hqd, rfl⟩
    have hxk : q.fst = k := by simpa using hxm
    exact h (List.any_eq_true.mpr ⟨q, hqd, by simp [hxk]⟩)

theorem keys_dictUpdate {V : Type} (p d : List (String × V))
    (hnd : (d.map Prod.fst).Nodup) :
    ((dictUpdate d p).map Prod.fst).Nodup := by
  induction p generalizing d with
  | nil => exact hnd
  | cons q rest ih => exact ih (dictSet d q.fst q.snd) (keys_dictSet d q.fst q.snd hnd)

theorem runStages_nodup {V E : Type} (tbl : List (String × StageFn V E))
    (order : List String) (ctx : List (String × V))
    (hnd : (ctx.map Prod.fst).Nodup) (ctxF : List (String × V))
    (hok : (runStages tbl order ctx).2 = Except.ok ctxF) :
    (ctxF.map Prod.fst).Nodup := by
  induction order generalizing ctx with
  | nil =>
    have hc : ctx = ctxF := Except.ok.inj hok
    subst hc
    exact hnd
  | cons n rest ih =>
    cases hp : tbl.find? (fun p => p.fst == n) with
    | none =>
      rw [show (runStages tbl (n :: rest) ctx).2 = Except.ok ctx by
        simp only [runStages, hp]] at hok
      have hc : ctx = ctxF := Except.ok.inj hok
      subst hc
      exact hnd
    | some p =>
      cases hps : p.snd ctx with
      | error e =>
        rw [show (runStages tbl (n :: rest) ctx).2 = Except.error e by
          simp only [runStages, hp, hps]] at hok
        exact absurd hok (by simp)
      | ok patch =>
        rw [show (runStages tbl (n :: rest) ctx).2 =
            (runStages tbl rest (dictUpdate ctx patch)).2 by
          simp only [runStages, hp, hps]] at hok
        exact ih (dictUpdate ctx patch) (keys_dictUpdate patch ctx hnd) hok

theorem patchGetLast_eq_dictGet {V : Type} (d : List (String × V))
    (k : String) (hnd : (d.map Prod.fst).Nodup) :
    patchGetLast d k = dictGet d k := by
  induction d with
  | nil => rfl
  | cons q rest ih =>
    rw [List.map_cons] at hnd
    obtain ⟨hq_not, hrest⟩ := List.nodup_cons.mp hnd
    rw [patchGetLast_cons, ih hrest]
    by_cases hq : (q.fst == k) = true
    · have hrest_none : dictGet rest k = none := by
        unfold dictGet
        have hfind : rest.find? (fun p => p.fst == k) = none := by
          rw [List.find?_eq_none]
          intro x hx hpx
          apply hq_not
          have hxq : x.fst = q.fst :=
            (eq_of_beq hpx).trans (eq_of_beq hq).symm
          rw [← hxq]
          exact List.mem_map_of_mem Prod.fst hx
        rw [hfind]
        rfl
      rw [hrest_none, if_pos hq]
      unfold dictGet
      rw [@List.find?_cons_of_pos _ (fun p => p.fst == k) q rest hq]
      rfl
    · rw [if_neg hq]
      unfold dictGet
      rw [@List.find?_cons_of_neg _ (fun p => p.fst == k) q rest hq]
      cases rest.find? (fun p => p.fst == k) <;> rfl

/-- C10 (implicit claim): for a successful `async_auto_call(prefix)` run,
(a) the invoked stage names are exactly the prefix-matching methods, each
once, in ascending order of the integer after the final `__` (numeric,
not lexicographic); (b) each stage's returned dict is merged into the
shared context with a later stage's value overwriting an earlier one for
the same key (`dictGet` of the final context is the last write, falling
back to the initial context); (c) after the last stage every context
key/value is assigned as an attribute of the object. -/
theorem async_auto_call_spec {V E : Type} (tbl : List (String × StageFn V E))
    (pre : String) (ctx0 attrs0 : List (String × V))
    (ctxF attrsF : List (String × V))
    (hctx0 : (ctx0.map Prod.fst).Nodup)
    (_hnum : ∀ n ∈ tbl.map Prod.fst,
      pre.data.isPrefixOf n.data → methodKeyParses n = true)
    (hok : (async_auto_call tbl pre ctx0 attrs0).2 =
      Except.ok (ctxF, attrsF)) :
    (((async_auto_call tbl pre ctx0 attrs0).1.map Prod.fst).Perm
      ((tbl.map Prod.fst).filter (fun n => pre.data.isPrefixOf n.data)) ∧
     ((async_auto_call tbl pre ctx0 attrs0).1.map Prod.fst).Sorted
       (fun a b => methodKey a ≤ methodKey b)) ∧
    (∀ k, dictGet ctxF k =
      (stagesLastWrite
        ((async_auto_call tbl pre ctx0 attrs0).1.map Prod.snd) k).or
        (dictGet ctx0 k)) ∧
    (∀ k v, dictGet ctxF k = some v → dictGet attrsF k = some v) := by
  have hfound : ∀ n ∈ autoCallOrder tbl pre,
      (tbl.find? (fun p => p.fst == n)).isSome := by
    intro n hn
    have hmem : n ∈ (tbl.map Prod.fst).filter
        (fun m => pre.data.isPrefixOf m.data) :=
      (sortByKey_perm methodKey _).subset hn
    have hmem2 : n ∈ tbl.map Prod.fst := List.mem_of_mem_filter hmem
    obtain ⟨p, hp, hpn⟩ := List.mem_map.mp hmem2
    exact List.find?_isSome.mpr ⟨p, hp, by rw [hpn]; simp⟩
  cases hrun : (runStages tbl (autoCallOrder tbl pre) ctx0).2 with
  | error e =>
    rw [show (async_auto_call tbl pre ctx0 attrs0).2 = Except.error e by
      simp only [async_auto_call, hrun]] at hok
    exact absurd hok (by simp)
  | ok ctx =>
    have hinv : (async_auto_call tbl pre ctx0 attrs0).1 =
        (runStages tbl (autoCallOrder tbl pre) ctx0).1 := by
      simp only [async_auto_call, hrun]
    rw [show (async_auto_call tbl pre ctx0 attrs0).2 =
        Except.ok (ctx, dictUpdate attrs0 ctx) by
      simp only [async_auto_call, hrun]] at hok
    have hpair := Except.ok.inj hok
    have hc : ctx = ctxF := congrArg Prod.fst hpair
    have ha : dictUpdate attrs0 ctx = attrsF := congrArg Prod.snd hpair
    subst hc
    obtain ⟨h1, h2⟩ := runStages_ok tbl (autoCallOrder tbl pre) ctx0 hfound
      ctx hrun
    refine ⟨⟨?_, ?_⟩, ?_, ?_⟩
    · rw [hinv, h1]
      exact sortByKey_perm methodKey _
    · rw [hinv, h1]
      exact sortByKey_sorted methodKey _
    · intro k
      rw [hinv]
      exact h2 k
    · intro k v hkv
      rw [← ha, dictGet_dictUpdate ctx attrs0 k,
        patchGetLast_eq_dictGet ctx k
          (runStages_nodup tbl (autoCallOrder tbl pre) ctx0 hctx0 ctx hrun),
        hkv]
      rfl

theorem async_auto_call_spec_witness :
    ((async_auto_call autoCallDemoTbl "_go__" [] []).1.map Prod.fst).Sorted
      (fun a b => methodKey a ≤ methodKey b) ∧
    dictGet [("x", (1 : Nat)), ("t", 100)] "t" = some 100 :=
  ⟨(async_auto_call_spec autoCallDemoTbl "_go__" [] []
      [("x", 1), ("t", 100)] [("x", 1), ("t", 100)]
      (by decide) (by decide) rfl).1.2,
   (async_auto_call_spec autoCallDemoTbl "_go__" [] []
      [("x", 1), ("t", 100)] [("x", 1), ("t", 100)]
      (by decide) (by decide) rfl).2.2 "t" 100 rfl⟩

end Xownbot
